import Mathlib

/-!
Verification of the process-pilot manifest model and readiness plugins.

This file shallowly embeds the Python code of `process_pilot` (mainly
`process_pilot/process.py` and `process_pilot/plugins/tcp_ready.py`) into Lean
and proves properties of the embedding.  Machine floats are modelled as
rationals, Python `dict`s whose keys matter as association lists, `pathlib`
paths as strings, raised exceptions as `Except` errors, and wall-clock time in
the TCP readiness loop as an explicit clock threaded through an abstract trace
of connection attempts.
-/

namespace ProcessPilot

/-- A value stored in a process's `ready_params` mapping (JSON scalar). -/
inductive PVal where
  | i (n : Int)
  | s (str : String)
deriving DecidableEq, Repr

/-- Python truthiness of an optional `ready_params` value: `None`, `0` and the
empty string are falsy (`if not port:` in `tcp_ready.py`). -/
def pyFalsy : Option PVal → Bool
  | none => true
  | some (.i n) => n == 0
  | some (.s str) => str == ""

/-- Key lookup in an association-list model of a Python `dict`. -/
def lookupKey : List (String × PVal) → String → Option PVal
  | [], _ => none
  | (k, v) :: rest, key => if k = key then some v else lookupKey rest key

/-- Embedding of the `Process` pydantic model (`process.py`), restricted to the
fields the verified validators and plugins read.  Dependencies are kept as the
declared names; the validated manifest resolves them against the process list
by name, which is faithful because name uniqueness is enforced first. -/
structure Proc where
  name : String
  path : String := ""
  deps : List String := []
  readyStrategy : Option String := none
  readyParams : List (String × PVal) := []
  affinity : List Int := []
deriving DecidableEq, Repr

/-- The names of the processes of a manifest, in declaration order. -/
def namesOf (procs : List Proc) : List String :=
  procs.map (fun p => p.name)

/-- Find the declared process with a given name (`process_dict[name]`). -/
def findProc (procs : List Proc) (n : String) : Option Proc :=
  procs.find? (fun q => q.name = n)

/-- The dependency list of the process named `n` (empty if `n` is undeclared). -/
def depsOfName (procs : List Proc) (n : String) : List String :=
  match findProc procs n with
  | some q => q.deps
  | none => []

/-- The `ValueError`s raised by the manifest validators, plus a fuel marker
used to make the depth-first traversal manifestly total (never reached for
manifests whose dependency names resolve, as proved below). -/
inductive ValErr where
  | duplicateName (n : String)
  | missingDep (dep : String) (procName : String)
  | circularDep (n : String) (other : String)
  | readyNeedsPath (n : String)
  | readyNeedsPort (n : String)
  | affinityOutOfRange (core : Int) (n : String)
  | fuelExhausted
deriving DecidableEq, Repr

/-- The message of each `ValueError`, matching the source f-strings. -/
def ValErr.message : ValErr → String
  | .duplicateName n => "Duplicate process name found: '" ++ n ++ "'"
  | .missingDep dep procName =>
      "Dependency '" ++ dep ++ "' for process '" ++ procName ++ "' not found."
  | .circularDep n other =>
      "Circular dependency detected involving process " ++ n ++
        " and process " ++ other
  | .readyNeedsPath n =>
      "File and pipe ready strategies require 'path' parameter: " ++ n
  | .readyNeedsPort n =>
      "TCP ready strategy requires 'port' parameter: " ++ n
  | .affinityOutOfRange core n =>
      "Affinity core " ++ toString core ++ " is out of range for process: " ++ n
  | .fuelExhausted => "recursion limit exceeded"

/-- One step of `ProcessManifest.resolve_dependencies`: scan the processes in
declaration order with the accumulated set of already-seen names; for each
process first check for a duplicate name, then check each dependency entry, in
order, against the dictionary of all declared names. -/
def resolveGo (procs : List Proc) : List Proc → List String → Except ValErr Unit
  | [], _ => .ok ()
  | p :: rest, seen =>
    if p.name ∈ seen then
      .error (.duplicateName p.name)
    else
      match p.deps.find? (fun d => d ∉ namesOf procs) with
      | some d => .error (.missingDep d p.name)
      | none => resolveGo procs rest (p.name :: seen)

/-- Embedding of the `resolve_dependencies` model validator: duplicate-name and
missing-dependency checks, interleaved per process in declaration order. -/
def resolveDependencies (procs : List Proc) : Except ValErr Unit :=
  resolveGo procs procs []

/-- Embedding of the `validate_ready_config` model validator: processes with
`ready_strategy` `"file"`/`"pipe"` need a `"path"` key in `ready_params`, and
`"tcp"` needs a `"port"` key; processes without a strategy are skipped. -/
def validateReadyConfig : List Proc → Except ValErr Unit
  | [] => .ok ()
  | p :: rest =>
    match p.readyStrategy with
    | none => validateReadyConfig rest
    | some strat =>
      if (strat = "file" ∨ strat = "pipe") ∧ lookupKey p.readyParams "path" = none then
        .error (.readyNeedsPath p.name)
      else if strat = "tcp" ∧ lookupKey p.readyParams "port" = none then
        .error (.readyNeedsPort p.name)
      else validateReadyConfig rest

/-- A process violates the readiness-configuration rules. -/
def readyViolation (p : Proc) : Prop :=
  (p.readyStrategy = some "file" ∨ p.readyStrategy = some "pipe") ∧
    lookupKey p.readyParams "path" = none ∨
  p.readyStrategy = some "tcp" ∧ lookupKey p.readyParams "port" = none

instance (p : Proc) : Decidable (readyViolation p) := by
  unfold readyViolation; infer_instance

/-- Whether the character list `needle` occurs contiguously in `hay`;
Python's `x in s` substring test on strings. -/
def charsInfixOf : List Char → List Char → Bool
  | needle, [] => needle.isEmpty
  | needle, c :: rest => needle.isPrefixOf (c :: rest) || charsInfixOf needle rest

/-- Python's substring containment `needle in hay` for strings. -/
def pySubstr (needle hay : String) : Bool :=
  charsInfixOf needle.toList hay.toList

/-- A POSIX model of `Path.is_absolute`: the path starts with a slash. -/
def pathIsAbsolute (p : String) : Bool :=
  match p.toList with
  | '/' :: _ => true
  | _ => false

/-- Path resolution applied to one process by
`_resolve_paths_relative_to_manifest` (called from `from_json`/`from_yaml`):
the guard of the source is `not process.path.is_absolute() and str(process.path)
not in ("python, sleep")`, whose right operand is the single string
`"python, sleep"`, so the membership test is Python substring containment. -/
def resolveProcPath (manifestDir : String) (p : Proc) : Proc :=
  if !(pathIsAbsolute p.path) && !(pySubstr p.path "python, sleep") then
    { p with path := manifestDir ++ "/" ++ p.path }
  else
    p

/-- `_resolve_paths_relative_to_manifest` over the whole process list
(the argument-rewriting part is not modelled; it touches `args` only). -/
def resolvePathsRelativeToManifest (manifestDir : String) (procs : List Proc) :
    List Proc :=
  procs.map (resolveProcPath manifestDir)

/-- The state of the depth-first traversal of `order_dependencies`: the output
list under construction and the `visited` / `visiting` markings.  `visiting`
is a stack (the source holds a Python set that the traversal pushes to and
pops from in LIFO order), `visited` and `ordered` only grow. -/
structure DfsState where
  ordered : List String
  visited : List String
  visiting : List String
deriving DecidableEq, Repr

/-- The initial traversal state. -/
def DfsState.init : DfsState := ⟨[], [], []⟩

/-- The `for dep in process.dependencies: visit(dep)` loop of the traversal,
parameterised by the recursive visit of a single process: each dependency name
is resolved against the declared processes (the loop runs on the objects
substituted by `resolve_dependencies`; an unresolvable name, impossible after
that validator, is skipped here to keep the model total). -/
def visitDepsF (procs : List Proc)
    (visitOne : Proc → DfsState → Except ValErr DfsState) :
    List String → DfsState → Except ValErr DfsState
  | [], s => .ok s
  | d :: ds, s =>
    match findProc procs d with
    | none => visitDepsF procs visitOne ds s
    | some q =>
      match visitOne q s with
      | .error e => .error e
      | .ok s' => visitDepsF procs visitOne ds s'

/-- The inner `visit` closure of `order_dependencies`: skip `visited` nodes,
raise on a node currently `visiting` (a cycle, reported together with another
in-progress node), otherwise mark the node `visiting`, recurse into its
dependencies in order, then unmark it, mark it `visited` and append it to the
output.  `fuel` bounds the recursion depth and strictly exceeds it whenever
the manifest's dependency names resolve, as proved below; the definition
recurses by `Nat.rec` on the fuel so that it computes by kernel reduction. -/
def visitProc (procs : List Proc) : Nat → Proc → DfsState → Except ValErr DfsState :=
  Nat.rec (motive := fun _ => Proc → DfsState → Except ValErr DfsState)
    (fun _ _ => .error .fuelExhausted)
    (fun _ ih p s =>
      if p.name ∈ s.visited then .ok s
      else if p.name ∈ s.visiting then
        .error (.circularDep p.name (s.visiting.headD p.name))
      else
        match visitDepsF procs ih p.deps { s with visiting := p.name :: s.visiting } with
        | .error e => .error e
        | .ok s2 =>
            .ok { ordered := s2.ordered ++ [p.name],
                  visited := p.name :: s2.visited,
                  visiting := s2.visiting.erase p.name })

/-- The dependency loop at a given fuel level. -/
def visitDeps (procs : List Proc) (fuel : Nat) :
    List String → DfsState → Except ValErr DfsState :=
  visitDepsF procs (visitProc procs fuel)

/-- The `for process in self.processes: visit(process)` loop of
`order_dependencies`. -/
def visitAll (procs : List Proc) (fuel : Nat) :
    List Proc → DfsState → Except ValErr DfsState
  | [], s => .ok s
  | p :: ps, s =>
    match visitProc procs fuel p s with
    | .error e => .error e
    | .ok s' => visitAll procs fuel ps s'

/-- Embedding of the `order_dependencies` model validator: run the depth-first
traversal over all processes and replace the process list by the traversal
output (looked up by name, which is injective once `resolve_dependencies` has
enforced uniqueness). -/
def orderDependencies (procs : List Proc) : Except ValErr (List Proc) :=
  match visitAll procs (procs.length + 1) procs .init with
  | .error e => .error e
  | .ok s => .ok (s.ordered.filterMap (findProc procs))

/-- Manifest construction: pydantic runs the three `mode="after"` model
validators of `ProcessManifest` in definition order — `resolve_dependencies`,
then `order_dependencies` (which reorders the list), then
`validate_ready_config` — stopping at the first raised `ValueError`. -/
def constructManifest (procs : List Proc) : Except ValErr (List Proc) :=
  match resolveDependencies procs with
  | .error e => .error e
  | .ok () =>
    match orderDependencies procs with
    | .error e => .error e
    | .ok ordered =>
      match validateReadyConfig ordered with
      | .error e => .error e
      | .ok () => .ok ordered

/-- Modelled from the spec: the `validate_cpu_affinity` manifest validator and
the `affinity` field validation are absent from the sources under `src/` (only
the unit tests call them); per the spec, each affinity value is a non-negative
CPU index that must be `< host CPU count`, and `affinity = [CPU_COUNT]` fails
with a `ManifestValidation` error reporting the value out of range. -/
def validateCpuAffinity (cpuCount : Int) : List Proc → Except ValErr Unit
  | [] => .ok ()
  | p :: rest =>
    match p.affinity.find? (fun a => a < 0 || cpuCount ≤ a) with
    | some a => .error (.affinityOutOfRange a p.name)
    | none => validateCpuAffinity cpuCount rest

/-- Modelled from the spec: full manifest construction with the affinity check
in the spec's validator order (after the readiness-configuration check). -/
def constructManifestWithAffinity (cpuCount : Int) (procs : List Proc) :
    Except ValErr (List Proc) :=
  match constructManifest procs with
  | .error e => .error e
  | .ok ordered =>
    match validateCpuAffinity cpuCount ordered with
    | .error e => .error e
    | .ok () => .ok ordered

/-- One connection attempt of the TCP readiness loop, as seen by the probe: it
lasts `dur` seconds of wall time and either completes the connection or raises
some exception (`socket.create_connection` failures, timeouts, …). -/
structure Attempt where
  dur : ℚ
  connected : Bool
deriving DecidableEq, Repr

/-- The outcome of `TCPReadyPlugin._wait_tcp_ready`. -/
inductive TcpOutcome where
  /-- The probe returned boolean `b` at `t` seconds after its start. -/
  | ret (b : Bool) (t : ℚ)
  /-- The probe raised `RuntimeError("Port not specified for TCP ready
  strategy")` before entering its loop. -/
  | portError
  /-- An exception of a single connection attempt escaped the probe
  (never produced: the loop body catches every attempt exception). -/
  | attemptExn
  /-- The abstract trace supplied fewer attempts than the loop consumes
  (a model artifact standing for an unfinished loop, not a probe outcome). -/
  | traceEnded
deriving DecidableEq, Repr

/-- The `while (time.time() - start_time) < process.ready_timeout_sec` loop of
`_wait_tcp_ready`: the deadline guard is evaluated before each attempt; a
completed connection returns `True` at the attempt's end; an attempt exception
is swallowed, the loop sleeps `interval` seconds and retries; a failed guard
returns `False`. -/
def tcpLoop (timeout interval : ℚ) : ℚ → List Attempt → TcpOutcome
  | now, trace =>
    if now < timeout then
      match trace with
      | [] => .traceEnded
      | a :: rest =>
        if a.connected then .ret true (now + a.dur)
        else tcpLoop timeout interval (now + a.dur + interval) rest
    else .ret false now

/-- Embedding of `TCPReadyPlugin._wait_tcp_ready`: read `ready_params["port"]`,
raise a `RuntimeError` if it is falsy (`if not port:`), then run the bounded
retry loop from time `0` over the abstract attempt trace. -/
def waitTcpReady (readyParams : List (String × PVal)) (timeout interval : ℚ)
    (trace : List Attempt) : TcpOutcome :=
  if pyFalsy (lookupKey readyParams "port") then .portError
  else tcpLoop timeout interval 0 trace

/-- Embedding of `ProcessRuntimeInfo`: the two instantaneous fields and the two
running-maximum fields, floats modelled as rationals. -/
structure RuntimeInfo where
  memoryUsageMb : ℚ
  cpuUsagePercent : ℚ
  maxMemoryUsageMb : ℚ
  maxCpuUsage : ℚ
deriving DecidableEq, Repr

/-- `ProcessRuntimeInfo.__init__`: all four fields start at `0.0`. -/
def RuntimeInfo.init : RuntimeInfo := ⟨0, 0, 0, 0⟩

/-- The `memory_usage_mb` property setter: store the value and fold it into the
running maximum with `max(value, self._max_memory_usage_mb)`. -/
def RuntimeInfo.setMemoryUsageMb (r : RuntimeInfo) (v : ℚ) : RuntimeInfo :=
  { r with memoryUsageMb := v, maxMemoryUsageMb := max v r.maxMemoryUsageMb }

/-- The `cpu_usage_percent` property setter, symmetric to the memory one. -/
def RuntimeInfo.setCpuUsagePercent (r : RuntimeInfo) (v : ℚ) : RuntimeInfo :=
  { r with cpuUsagePercent := v, maxCpuUsage := max v r.maxCpuUsage }

/-- One assignment to an instantaneous `ProcessRuntimeInfo` field. -/
inductive RtUpdate where
  | mem (v : ℚ)
  | cpu (v : ℚ)
deriving DecidableEq, Repr

/-- Apply one assignment through the corresponding property setter. -/
def applyUpdate (r : RuntimeInfo) : RtUpdate → RuntimeInfo
  | .mem v => r.setMemoryUsageMb v
  | .cpu v => r.setCpuUsagePercent v

/-- Run a finite sequence of assignments on a freshly constructed
`ProcessRuntimeInfo`. -/
def runUpdates (us : List RtUpdate) : RuntimeInfo :=
  us.foldl applyUpdate .init

/-- The values assigned to `memory_usage_mb` by a sequence of assignments. -/
def memValues (us : List RtUpdate) : List ℚ :=
  us.filterMap (fun u => match u with | .mem v => some v | _ => none)

/-- The values assigned to `cpu_usage_percent` by a sequence of assignments. -/
def cpuValues (us : List RtUpdate) : List ℚ :=
  us.filterMap (fun u => match u with | .cpu v => some v | _ => none)

/-- The outcome of the `psutil` lookups performed by `record_process_stats`
(`psutil.Process(pid)`, `memory_info()`, `cpu_percent()`). -/
inductive PsutilOutcome where
  /-- All lookups succeeded, reporting `rssBytes` of resident memory and a CPU
  percentage. -/
  | found (rssBytes : ℚ) (cpu : ℚ)
  /-- A lookup raised `psutil.NoSuchProcess`. -/
  | noSuchProcess
  /-- A lookup raised a permission error (`psutil.AccessDenied`). -/
  | accessDenied
deriving DecidableEq, Repr

/-- An exception escaping `record_process_stats`. -/
inductive StatsExn where
  | accessDenied
deriving DecidableEq, Repr

/-- Embedding of `Process.record_process_stats`: `NoSuchProcess` is caught,
logged and the method returns with the runtime info untouched; a permission
error propagates before any field is written; on success the CPU field is set
first, then the memory field (RSS bytes divided by `1024 * 1024`). -/
def recordProcessStats (outcome : PsutilOutcome) (r : RuntimeInfo) :
    RuntimeInfo × Option StatsExn :=
  match outcome with
  | .noSuchProcess => (r, none)
  | .accessDenied => (r, some .accessDenied)
  | .found rssBytes cpu =>
      (((r.setCpuUsagePercent cpu).setMemoryUsageMb (rssBytes / (1024 * 1024))), none)

/-- Every dependency entry of every process names a declared process (the
property `resolve_dependencies` establishes). -/
def Closed (procs : List Proc) : Prop :=
  ∀ p ∈ procs, ∀ d ∈ p.deps, d ∈ namesOf procs

/-- The name list `L` is topologically ordered for the dependency graph of
`procs`: wherever a name occurs in `L`, all its dependencies occur earlier. -/
def TopoOrd (procs : List Proc) (L : List String) : Prop :=
  ∀ l1 n l2, L = l1 ++ n :: l2 → ∀ d ∈ depsOfName procs n, d ∈ l1

/-- Invariant of the traversal state: `visited` and `ordered` hold the same
names, both marking lists are duplicate-free and contain only declared names,
and the output built so far is topologically ordered. -/
def DfsInv (procs : List Proc) (s : DfsState) : Prop :=
  (∀ x, x ∈ s.visited ↔ x ∈ s.ordered) ∧
  s.ordered.Nodup ∧
  s.visiting.Nodup ∧
  (∀ n ∈ s.visited, n ∈ namesOf procs) ∧
  (∀ n ∈ s.visiting, n ∈ namesOf procs) ∧
  TopoOrd procs s.ordered

/-- What a successful traversal step guarantees: the `visiting` stack is
restored, `visited` only grows, a node that was in progress and unvisited
stays unvisited, and the invariant is preserved. -/
def PostCommon (procs : List Proc) (s s' : DfsState) : Prop :=
  s'.visiting = s.visiting ∧
  (∀ x ∈ s.visited, x ∈ s'.visited) ∧
  (∀ x, x ∈ s.visiting → x ∉ s.visited → x ∉ s'.visited) ∧
  DfsInv procs s'

/-! ## Lemmas about the runtime-info running maxima -/

lemma foldl_applyUpdate_maxMem (us : List RtUpdate) (r : RuntimeInfo) :
    (us.foldl applyUpdate r).maxMemoryUsageMb =
      (memValues us).foldl max r.maxMemoryUsageMb := by
  induction us generalizing r with
  | nil => rfl
  | cons u us ih =>
    cases u with
    | mem v =>
      simp only [List.foldl_cons, memValues, List.filterMap_cons, applyUpdate]
      rw [ih]
      simp [RuntimeInfo.setMemoryUsageMb, memValues, max_comm]
    | cpu v =>
      simp only [List.foldl_cons, memValues, List.filterMap_cons, applyUpdate]
      rw [ih]
      simp [RuntimeInfo.setCpuUsagePercent, memValues]

lemma foldl_applyUpdate_maxCpu (us : List RtUpdate) (r : RuntimeInfo) :
    (us.foldl applyUpdate r).maxCpuUsage =
      (cpuValues us).foldl max r.maxCpuUsage := by
  induction us generalizing r with
  | nil => rfl
  | cons u us ih =>
    cases u with
    | mem v =>
      simp only [List.foldl_cons, cpuValues, List.filterMap_cons, applyUpdate]
      rw [ih]
      simp [RuntimeInfo.setMemoryUsageMb, cpuValues]
    | cpu v =>
      simp only [List.foldl_cons, cpuValues, List.filterMap_cons, applyUpdate]
      rw [ih]
      simp [RuntimeInfo.setCpuUsagePercent, cpuValues, max_comm]

lemma foldl_applyUpdate_le (us : List RtUpdate) (r : RuntimeInfo)
    (hm : r.memoryUsageMb ≤ r.maxMemoryUsageMb)
    (hc : r.cpuUsagePercent ≤ r.maxCpuUsage) :
    (us.foldl applyUpdate r).memoryUsageMb ≤ (us.foldl applyUpdate r).maxMemoryUsageMb ∧
      (us.foldl applyUpdate r).cpuUsagePercent ≤ (us.foldl applyUpdate r).maxCpuUsage := by
  induction us generalizing r with
  | nil => exact ⟨hm, hc⟩
  | cons u us ih =>
    cases u with
    | mem v =>
      exact ih _ (le_max_left _ _) hc
    | cpu v =>
      exact ih _ hm (le_max_left _ _)

lemma applyUpdate_max_monotone (r : RuntimeInfo) (u : RtUpdate) :
    r.maxMemoryUsageMb ≤ (applyUpdate r u).maxMemoryUsageMb ∧
      r.maxCpuUsage ≤ (applyUpdate r u).maxCpuUsage := by
  cases u with
  | mem v => exact ⟨le_max_right _ _, le_rfl⟩
  | cpu v => exact ⟨le_rfl, le_max_right _ _⟩

/-! ## Lemmas about the TCP readiness loop -/

lemma tcpLoop_ne_attemptExn (timeout interval : ℚ) (trace : List Attempt) :
    ∀ now : ℚ, tcpLoop timeout interval now trace ≠ .attemptExn := by
  induction trace with
  | nil =>
    intro now h
    rw [tcpLoop.eq_def] at h
    by_cases hg : now < timeout <;> simp [hg] at h
  | cons a rest ih =>
    intro now h
    rw [tcpLoop.eq_def] at h
    by_cases hg : now < timeout
    · simp only [if_pos hg] at h
      by_cases hc : a.connected = true <;> simp [hc] at h
      exact ih _ h
    · simp [hg] at h

lemma tcpLoop_expired (timeout interval : ℚ) (trace : List Attempt) (now : ℚ)
    (h : ¬ now < timeout) : tcpLoop timeout interval now trace = .ret false now := by
  rw [tcpLoop.eq_def]
  simp only [if_neg h]

lemma tcpLoop_ret_true_lt (timeout interval : ℚ) (trace : List Attempt)
    (hdur : ∀ a ∈ trace, a.dur ≤ 1) :
    ∀ now t : ℚ, tcpLoop timeout interval now trace = .ret true t → t < timeout + 1 := by
  induction trace with
  | nil =>
    intro now t h
    rw [tcpLoop.eq_def] at h
    by_cases hg : now < timeout <;> simp [hg] at h
  | cons a rest ih =>
    intro now t h
    rw [tcpLoop.eq_def] at h
    by_cases hg : now < timeout
    · simp only [if_pos hg] at h
      by_cases hc : a.connected = true
      · simp only [hc, if_true] at h
        have hd : a.dur ≤ 1 := hdur a (List.mem_cons_self a rest)
        have ht : t = now + a.dur := by
          cases h
          rfl
        subst ht
        linarith
      · simp only [hc, if_false] at h
        exact ih (fun b hb => hdur b (List.mem_cons_of_mem a hb)) _ _ h
    · simp [hg] at h

/-! ## Claim theorems: runtime info, stats recording, TCP probe, path typo -/

/-- C8: starting from a fresh `ProcessRuntimeInfo`, after any finite sequence
of assignments to `memory_usage_mb` and `cpu_usage_percent` the max fields
dominate the instantaneous fields, each max field equals the maximum of `0.0`
and all values assigned to the corresponding instantaneous field so far, and
appending one more assignment never decreases either running maximum. -/
theorem C8_runtime_info_running_max (us : List RtUpdate) :
    (runUpdates us).memoryUsageMb ≤ (runUpdates us).maxMemoryUsageMb ∧
    (runUpdates us).cpuUsagePercent ≤ (runUpdates us).maxCpuUsage ∧
    (runUpdates us).maxMemoryUsageMb = (memValues us).foldl max 0 ∧
    (runUpdates us).maxCpuUsage = (cpuValues us).foldl max 0 ∧
    ∀ u : RtUpdate,
      (runUpdates us).maxMemoryUsageMb ≤ (runUpdates (us ++ [u])).maxMemoryUsageMb ∧
      (runUpdates us).maxCpuUsage ≤ (runUpdates (us ++ [u])).maxCpuUsage := by
  have hle := foldl_applyUpdate_le us RuntimeInfo.init le_rfl le_rfl
  refine ⟨hle.1, hle.2, foldl_applyUpdate_maxMem us RuntimeInfo.init,
    foldl_applyUpdate_maxCpu us RuntimeInfo.init, fun u => ?_⟩
  have : runUpdates (us ++ [u]) = applyUpdate (runUpdates us) u := by
    simp [runUpdates, List.foldl_append]
  rw [this]
  exact applyUpdate_max_monotone (runUpdates us) u

/-- C10: `record_process_stats` returns normally on a no-such-process error
and leaves every runtime-info field unchanged; a permission error propagates
to the caller, also leaving every field unchanged. -/
theorem C10_record_stats_errors (r : RuntimeInfo) :
    recordProcessStats .noSuchProcess r = (r, none) ∧
    recordProcessStats .accessDenied r = (r, some .accessDenied) ∧
    (recordProcessStats .noSuchProcess r).1.memoryUsageMb = r.memoryUsageMb ∧
    (recordProcessStats .noSuchProcess r).1.cpuUsagePercent = r.cpuUsagePercent ∧
    (recordProcessStats .noSuchProcess r).1.maxMemoryUsageMb = r.maxMemoryUsageMb ∧
    (recordProcessStats .noSuchProcess r).1.maxCpuUsage = r.maxCpuUsage ∧
    (recordProcessStats .accessDenied r).1.memoryUsageMb = r.memoryUsageMb ∧
    (recordProcessStats .accessDenied r).1.cpuUsagePercent = r.cpuUsagePercent ∧
    (recordProcessStats .accessDenied r).1.maxMemoryUsageMb = r.maxMemoryUsageMb ∧
    (recordProcessStats .accessDenied r).1.maxCpuUsage = r.maxCpuUsage :=
  ⟨rfl, rfl, rfl, rfl, rfl, rfl, rfl, rfl, rfl, rfl⟩

/-- C6: the TCP readiness probe raises a `RuntimeError` instead of returning a
boolean when `ready_params` has no `"port"` key; an exception raised by a
single connection attempt never escapes the probe; and a loop exit caused by
the expired deadline surfaces only as the return value `False`. -/
theorem C6_tcp_probe_port_error_and_swallow (readyParams : List (String × PVal))
    (timeout interval : ℚ) (trace : List Attempt) :
    (lookupKey readyParams "port" = none →
      waitTcpReady readyParams timeout interval trace = .portError) ∧
    waitTcpReady readyParams timeout interval trace ≠ .attemptExn ∧
    ∀ now : ℚ, ¬ now < timeout →
      tcpLoop timeout interval now trace = .ret false now := by
  refine ⟨fun hnone => ?_, ?_, fun now h => tcpLoop_expired _ _ _ _ h⟩
  · unfold waitTcpReady
    rw [hnone]
    rfl
  · unfold waitTcpReady
    by_cases hf : pyFalsy (lookupKey readyParams "port") = true
    · simp [hf]
    · simp only [hf]
      simp only [Bool.false_eq_true, if_false]
      exact tcpLoop_ne_attemptExn timeout interval trace 0

/-- Witness for C6 at a concrete input: an empty `ready_params` mapping makes
the probe raise the port `RuntimeError`. -/
theorem C6_tcp_probe_port_error_and_swallow_witness :
    waitTcpReady [] 5 1 [] = .portError :=
  (C6_tcp_probe_port_error_and_swallow [] 5 1 []).1 rfl

/-- C7, counterexample: the deadline guard runs before each attempt, so with
`ready_timeout_sec = 10`, a zero poll interval and ten 1-second attempts, the
probe returns `True` exactly 10 seconds after its start — not strictly less
than the timeout.  This refutes the claim that a readiness probe never returns
`true` once `ready_timeout_sec` has elapsed. -/
theorem C7_counterexample :
    waitTcpReady [("port", .i 5432)] 10 0
        (List.replicate 9 ⟨1, false⟩ ++ [⟨1, true⟩]) = .ret true 10 ∧
    ¬ (10 : ℚ) < 10 :=
  ⟨by norm_num [waitTcpReady, tcpLoop, pyFalsy, lookupKey, List.replicate],
    lt_irrefl 10⟩

/-- C7, amended: the deadline guard passes strictly before the successful
attempt starts, and each attempt is bounded by the 1-second connect timeout,
so a probe that returns `true` does so strictly less than
`ready_timeout_sec + 1` seconds after its start. -/
theorem C7_amended_true_before_deadline_plus_one
    (readyParams : List (String × PVal)) (timeout interval : ℚ)
    (trace : List Attempt) (t : ℚ)
    (hdur : ∀ a ∈ trace, a.dur ≤ 1)
    (h : waitTcpReady readyParams timeout interval trace = .ret true t) :
    t < timeout + 1 := by
  unfold waitTcpReady at h
  by_cases hf : pyFalsy (lookupKey readyParams "port") = true
  · simp [hf] at h
  · simp only [hf, Bool.false_eq_true, if_false] at h
    exact tcpLoop_ret_true_lt timeout interval trace hdur 0 t h

/-- Witness for the amended C7 at a concrete input: a probe succeeding on its
first half-second attempt returns within the extended bound. -/
theorem C7_amended_true_before_deadline_plus_one_witness :
    waitTcpReady [("port", .i 80)] 10 0 [⟨1/2, true⟩] = .ret true (1/2) ∧
      (1/2 : ℚ) < 10 + 1 := by
  have heval : waitTcpReady [("port", .i 80)] 10 0 [⟨1/2, true⟩] = .ret true (1/2) := by
    norm_num [waitTcpReady, tcpLoop, pyFalsy, lookupKey]
  exact ⟨heval, C7_amended_true_before_deadline_plus_one [("port", .i 80)] 10 0
    [⟨1/2, true⟩] (1/2) (by intro a ha; simp at ha; rw [ha]; norm_num) heval⟩

/-- C2: evaluation of the path-resolution code at the failing input.  The
source guard `str(process.path) not in ("python, sleep")` tests substring
containment in the single string `"python, sleep"` (a tuple typo), so the
relative path `"py"` — neither `"python"` nor `"sleep"` — is left unresolved,
while an ordinary relative path such as `"foo"` is rewritten under the
manifest directory. -/
theorem C2_path_typo_eval :
    resolveProcPath "/manifest/dir" { name := "x", path := "py" } =
      { name := "x", path := "py" } ∧
    pathIsAbsolute "py" = false ∧
    "py" ≠ "python" ∧
    "py" ≠ "sleep" ∧
    resolvePathsRelativeToManifest "/manifest/dir" [{ name := "x", path := "py" }] =
      [{ name := "x", path := "py" }] ∧
    resolveProcPath "/manifest/dir" { name := "x", path := "foo" } =
      { name := "x", path := "/manifest/dir/foo" } :=
  ⟨rfl, rfl, by decide, by decide, rfl, rfl⟩

/-! ## Basic lemmas about name lookup and the resolve validator -/

lemma mem_namesOf {procs : List Proc} {n : String} :
    n ∈ namesOf procs ↔ ∃ q ∈ procs, q.name = n := by
  simp [namesOf]

lemma findProc_eq_some_name {procs : List Proc} {n : String} {q : Proc}
    (h : findProc procs n = some q) : q ∈ procs ∧ q.name = n := by
  refine ⟨List.mem_of_find?_eq_some h, ?_⟩
  have := List.find?_some h
  simpa using this

lemma findProc_isSome_of_mem {procs : List Proc} {n : String}
    (h : n ∈ namesOf procs) : ∃ q, findProc procs n = some q := by
  obtain ⟨q, hq, hname⟩ := mem_namesOf.mp h
  have : ∃ x ∈ procs, (fun q : Proc => decide (q.name = n)) x = true :=
    ⟨q, hq, by simp [hname]⟩
  have hsome := List.find?_isSome.mpr this
  exact Option.isSome_iff_exists.mp hsome

lemma findProc_self {procs : List Proc} (hnd : (namesOf procs).Nodup)
    {p : Proc} (hp : p ∈ procs) : findProc procs p.name = some p := by
  induction procs with
  | nil => cases hp
  | cons q rest ih =>
    have hnd' : q.name ∉ namesOf rest ∧ (namesOf rest).Nodup := by
      simpa [namesOf] using hnd
    rcases List.mem_cons.mp hp with rfl | hmem
    · simp [findProc]
    · have hne : ¬ q.name = p.name := by
        intro heq
        exact hnd'.1 (heq ▸ mem_namesOf.mpr ⟨p, hmem, rfl⟩)
      have : findProc (q :: rest) p.name = findProc rest p.name := by
        simp [findProc, List.find?_cons_of_neg, hne]
      rw [this]
      exact ih hnd'.2 hmem

lemma resolveGo_ok_spec (procs : List Proc) :
    ∀ l seen, resolveGo procs l seen = .ok () →
      (namesOf l).Nodup ∧ (∀ n ∈ namesOf l, n ∉ seen) ∧
        ∀ p ∈ l, ∀ d ∈ p.deps, d ∈ namesOf procs := by
  intro l
  induction l with
  | nil => intro seen _; simp [namesOf]
  | cons p rest ih =>
    intro seen h
    rw [resolveGo.eq_def] at h
    by_cases hseen : p.name ∈ seen
    · simp [hseen] at h
    · simp only [hseen, if_false] at h
      cases hfind : p.deps.find? (fun d => d ∉ namesOf procs) with
      | some d => rw [hfind] at h; exact absurd h (by simp)
      | none =>
        rw [hfind] at h
        obtain ⟨hnd, hsn, hcl⟩ := ih _ h
        have hdeps : ∀ d ∈ p.deps, d ∈ namesOf procs := by
          intro d hd
          have := List.find?_eq_none.mp hfind d hd
          simpa using this
        have hpn : p.name ∉ namesOf rest := by
          intro hmem
          exact (hsn _ hmem) (List.mem_cons_self _ _)
        refine ⟨?_, ?_, ?_⟩
        · have : namesOf (p :: rest) = p.name :: namesOf rest := rfl
          rw [this, List.nodup_cons]
          exact ⟨hpn, hnd⟩
        · intro n hn
          rcases (by simpa [namesOf] using hn :
              n = p.name ∨ n ∈ namesOf rest) with rfl | hn'
          · exact hseen
          · exact fun hs => (hsn _ hn') (List.mem_cons_of_mem _ hs)
        · intro q hq d hd
          rcases List.mem_cons.mp hq with rfl | hq'
          · exact hdeps d hd
          · exact hcl q hq' d hd

lemma resolve_ok_nodup_closed {procs : List Proc}
    (h : resolveDependencies procs = .ok ()) :
    (namesOf procs).Nodup ∧ Closed procs := by
  obtain ⟨hnd, _, hcl⟩ := resolveGo_ok_spec procs procs [] h
  exact ⟨hnd, hcl⟩

/-! ## Unfolding equations and step lemmas of the depth-first traversal -/

lemma visitProc_zero (procs : List Proc) (p : Proc) (s : DfsState) :
    visitProc procs 0 p s = .error .fuelExhausted := rfl

lemma visitProc_succ (procs : List Proc) (fuel : Nat) (p : Proc) (s : DfsState) :
    visitProc procs (fuel + 1) p s =
      (if p.name ∈ s.visited then .ok s
       else if p.name ∈ s.visiting then
         .error (.circularDep p.name (s.visiting.headD p.name))
       else
         match visitDeps procs fuel p.deps { s with visiting := p.name :: s.visiting } with
         | .error e => .error e
         | .ok s2 =>
             .ok { ordered := s2.ordered ++ [p.name],
                   visited := p.name :: s2.visited,
                   visiting := s2.visiting.erase p.name }) := rfl

lemma visitDeps_nil (procs : List Proc) (fuel : Nat) (s : DfsState) :
    visitDeps procs fuel [] s = .ok s := rfl

lemma visitDeps_cons (procs : List Proc) (fuel : Nat) (d : String)
    (ds : List String) (s : DfsState) :
    visitDeps procs fuel (d :: ds) s =
      (match findProc procs d with
       | none => visitDeps procs fuel ds s
       | some q =>
         match visitProc procs fuel q s with
         | .error e => .error e
         | .ok s' => visitDeps procs fuel ds s') := rfl

lemma postCommon_refl (procs : List Proc) {s : DfsState} (h : DfsInv procs s) :
    PostCommon procs s s :=
  ⟨rfl, fun _ hx => hx, fun _ _ hx => hx, h⟩

lemma postCommon_trans (procs : List Proc) {s s' s'' : DfsState}
    (h1 : PostCommon procs s s') (h2 : PostCommon procs s' s'') :
    PostCommon procs s s'' := by
  obtain ⟨hv1, hm1, hp1, _⟩ := h1
  obtain ⟨hv2, hm2, hp2, hinv2⟩ := h2
  refine ⟨hv2.trans hv1, fun x hx => hm2 x (hm1 x hx), ?_, hinv2⟩
  intro x hxv hxnv
  exact hp2 x (hv1 ▸ hxv) (hp1 x hxv hxnv)

lemma topoOrd_append {procs : List Proc} {L : List String} {n : String}
    (h : TopoOrd procs L) (hdep : ∀ d ∈ depsOfName procs n, d ∈ L) :
    TopoOrd procs (L ++ [n]) := by
  intro l1 m l2 hsplit d hd
  rcases List.eq_nil_or_concat l2 with rfl | ⟨l2', x, rfl⟩
  · obtain ⟨rfl, hm⟩ := List.append_inj' hsplit.symm (by simp)
    obtain rfl : m = n := by simpa using hm
    exact hdep d hd
  · rw [List.concat_eq_append] at hsplit
    have hre : (l1 ++ m :: l2') ++ [x] = L ++ [n] := by
      rw [List.append_assoc]
      simpa using hsplit.symm
    obtain ⟨hL, _⟩ := List.append_inj' hre (by simp)
    exact h l1 m l2' hL.symm d hd

/-- The central correctness lemma of the traversal, by induction on the fuel:
whenever every dependency name resolves and the state invariant holds (and the
fuel dominates the number of still-unvisited name slots), `visitProc` and
`visitDeps` either fail with a circular-dependency error or succeed with the
invariant preserved, the visited set grown by exactly the required names, and
the `visiting` stack restored. -/
lemma visitSpec (procs : List Proc) (hnd : (namesOf procs).Nodup)
    (hcl : Closed procs) :
    ∀ fuel : Nat,
      (∀ p s, p ∈ procs → DfsInv procs s →
        (namesOf procs).length + 1 ≤ fuel + s.visiting.length →
        (∀ e, visitProc procs fuel p s = .error e → ∃ a b, e = .circularDep a b) ∧
        (∀ s', visitProc procs fuel p s = .ok s' →
          PostCommon procs s s' ∧ p.name ∈ s'.visited)) ∧
      (∀ ds s, (∀ d ∈ ds, d ∈ namesOf procs) → DfsInv procs s →
        (namesOf procs).length + 1 ≤ fuel + s.visiting.length →
        (∀ e, visitDeps procs fuel ds s = .error e → ∃ a b, e = .circularDep a b) ∧
        (∀ s', visitDeps procs fuel ds s = .ok s' →
          PostCommon procs s s' ∧ ∀ d ∈ ds, d ∈ s'.visited)) := by
  intro fuel
  induction fuel with
  | zero =>
    have hlen : ∀ s : DfsState, DfsInv procs s →
        ¬ ((namesOf procs).length + 1 ≤ 0 + s.visiting.length) := by
      intro s hinv hle
      have hsub : s.visiting ⊆ namesOf procs := fun x hx => hinv.2.2.2.2.1 x hx
      have := (List.Nodup.subperm hinv.2.2.1 hsub).length_le
      omega
    exact ⟨fun p s _ hinv hle => absurd hle (hlen s hinv),
      fun ds s _ hinv hle => absurd hle (hlen s hinv)⟩
  | succ fuel ih =>
    have hA : ∀ p s, p ∈ procs → DfsInv procs s →
        (namesOf procs).length + 1 ≤ (fuel + 1) + s.visiting.length →
        (∀ e, visitProc procs (fuel + 1) p s = .error e →
          ∃ a b, e = .circularDep a b) ∧
        (∀ s', visitProc procs (fuel + 1) p s = .ok s' →
          PostCommon procs s s' ∧ p.name ∈ s'.visited) := by
      intro p s hp hinv hle
      obtain ⟨hiff, hordN, hvisN, hvsub, hvisub, htopo⟩ := hinv
      by_cases h1 : p.name ∈ s.visited
      · have heq : visitProc procs (fuel + 1) p s = .ok s := by
          rw [visitProc_succ, if_pos h1]
        rw [heq]
        refine ⟨fun e he => (nomatch he), fun s' hs' => ?_⟩
        injection hs' with h
        subst h
        exact ⟨postCommon_refl procs ⟨hiff, hordN, hvisN, hvsub, hvisub, htopo⟩, h1⟩
      · by_cases h2 : p.name ∈ s.visiting
        · have heq : visitProc procs (fuel + 1) p s =
              .error (.circularDep p.name (s.visiting.headD p.name)) := by
            rw [visitProc_succ, if_neg h1, if_pos h2]
          rw [heq]
          refine ⟨fun e he => ?_, fun s' hs' => (nomatch hs')⟩
          injection he with h
          exact ⟨_, _, h.symm⟩
        · have hpname : p.name ∈ namesOf procs := mem_namesOf.mpr ⟨p, hp, rfl⟩
          have hinv1 : DfsInv procs { s with visiting := p.name :: s.visiting } := by
            refine ⟨hiff, hordN, List.nodup_cons.mpr ⟨h2, hvisN⟩, hvsub, ?_, htopo⟩
            intro n hn
            rcases List.mem_cons.mp hn with rfl | hn'
            · exact hpname
            · exact hvisub n hn'
          have hle1 : (namesOf procs).length + 1 ≤
              fuel + ({ s with visiting := p.name :: s.visiting } : DfsState).visiting.length := by
            simp only [List.length_cons]
            omega
          have hdeps : ∀ d ∈ p.deps, d ∈ namesOf procs := fun d hd => hcl p hp d hd
          obtain ⟨herrD, hokD⟩ := ih.2 p.deps _ hdeps hinv1 hle1
          cases hvd : visitDeps procs fuel p.deps { s with visiting := p.name :: s.visiting } with
          | error e =>
            have heq : visitProc procs (fuel + 1) p s = .error e := by
              rw [visitProc_succ, if_neg h1, if_neg h2, hvd]
            rw [heq]
            refine ⟨fun e' he' => ?_, fun s' hs' => (nomatch hs')⟩
            injection he' with h
            exact h ▸ herrD e hvd
          | ok s2 =>
            have heq : visitProc procs (fuel + 1) p s =
                .ok ⟨s2.ordered ++ [p.name], p.name :: s2.visited,
                  s2.visiting.erase p.name⟩ := by
              rw [visitProc_succ, if_neg h1, if_neg h2, hvd]
            rw [heq]
            refine ⟨fun e he => (nomatch he), fun s' hs' => ?_⟩
            obtain ⟨⟨hviseq, hmono, hP4, hinv2⟩, hdvis⟩ := hokD s2 hvd
            obtain ⟨hiff2, hordN2, hvisN2, hvsub2, hvisub2, htopo2⟩ := hinv2
            have hs'eq : s' = ⟨s2.ordered ++ [p.name], p.name :: s2.visited,
                s2.visiting.erase p.name⟩ := by
              injection hs' with h
              exact h.symm
            subst hs'eq
            have hviseq' : s2.visiting = p.name :: s.visiting := hviseq
            have herase : s2.visiting.erase p.name = s.visiting := by
              rw [hviseq']
              exact List.erase_cons_head _ _
            have hp_notin_s2 : p.name ∉ s2.visited :=
              hP4 p.name (List.mem_cons_self _ _) h1
            have hp_notin_ord2 : p.name ∉ s2.ordered := fun hmem =>
              hp_notin_s2 ((hiff2 p.name).mpr hmem)
            have hdepsOf : depsOfName procs p.name = p.deps := by
              simp [depsOfName, findProc_self hnd hp]
            refine ⟨⟨herase, ?_, ?_, ?_⟩, List.mem_cons_self _ _⟩
            · intro x hx
              exact List.mem_cons_of_mem _ (hmono x hx)
            · intro x hxv hxnv hmem
              rcases List.mem_cons.mp hmem with rfl | hmem'
              · exact h2 hxv
              · exact hP4 x (List.mem_cons_of_mem _ hxv) hxnv hmem'
            · refine ⟨?_, ?_, ?_, ?_, ?_, ?_⟩
              · intro x
                constructor
                · intro hx
                  rcases List.mem_cons.mp hx with rfl | hx'
                  · exact List.mem_append.mpr (Or.inr (List.mem_singleton.mpr rfl))
                  · exact List.mem_append.mpr (Or.inl ((hiff2 x).mp hx'))
                · intro hx
                  rcases List.mem_append.mp hx with hx' | hx'
                  · exact List.mem_cons_of_mem _ ((hiff2 x).mpr hx')
                  · exact List.mem_singleton.mp hx' ▸ List.mem_cons_self _ _
              · refine List.nodup_append.mpr ⟨hordN2, List.nodup_singleton _, ?_⟩
                intro a ha hb
                rw [List.mem_singleton] at hb
                subst hb
                exact hp_notin_ord2 ha
              · rw [herase]
                exact hvisN
              · intro n hn
                rcases List.mem_cons.mp hn with rfl | hn'
                · exact hpname
                · exact hvsub2 n hn'
              · rw [herase]
                exact hvisub
              · refine topoOrd_append htopo2 ?_
                rw [hdepsOf]
                intro d hd
                exact (hiff2 d).mp (hdvis d hd)
    have hB : ∀ ds s, (∀ d ∈ ds, d ∈ namesOf procs) → DfsInv procs s →
        (namesOf procs).length + 1 ≤ (fuel + 1) + s.visiting.length →
        (∀ e, visitDeps procs (fuel + 1) ds s = .error e →
          ∃ a b, e = .circularDep a b) ∧
        (∀ s', visitDeps procs (fuel + 1) ds s = .ok s' →
          PostCommon procs s s' ∧ ∀ d ∈ ds, d ∈ s'.visited) := by
      intro ds
      induction ds with
      | nil =>
        intro s _ hinv _
        rw [visitDeps_nil]
        refine ⟨fun e he => (nomatch he), fun s' hs' => ?_⟩
        injection hs' with h
        subst h
        exact ⟨postCommon_refl procs hinv, by simp⟩
      | cons d ds' ihd =>
        intro s hds hinv hle
        have hdn : d ∈ namesOf procs := hds d (List.mem_cons_self _ _)
        obtain ⟨q, hq⟩ := findProc_isSome_of_mem hdn
        obtain ⟨hqmem, hqname⟩ := findProc_eq_some_name hq
        obtain ⟨herrA, hokA⟩ := hA q s hqmem hinv hle
        cases hv : visitProc procs (fuel + 1) q s with
        | error e =>
          have heq : visitDeps procs (fuel + 1) (d :: ds') s = .error e := by
            simp only [visitDeps_cons, hq]
            rw [hv]
          rw [heq]
          refine ⟨fun e' he' => ?_, fun s' hs' => (nomatch hs')⟩
          injection he' with h
          exact h ▸ herrA e hv
        | ok s'' =>
          have heq : visitDeps procs (fuel + 1) (d :: ds') s =
              visitDeps procs (fuel + 1) ds' s'' := by
            simp only [visitDeps_cons, hq]
            rw [hv]
          rw [heq]
          obtain ⟨hpc, hqvis⟩ := hokA s'' hv
          have hle'' : (namesOf procs).length + 1 ≤ (fuel + 1) + s''.visiting.length := by
            rw [hpc.1]
            exact hle
          obtain ⟨herrR, hokR⟩ :=
            ihd s'' (fun d' hd' => hds d' (List.mem_cons_of_mem _ hd')) hpc.2.2.2 hle''
          refine ⟨herrR, fun s' hs' => ?_⟩
          obtain ⟨hpc', hvis'⟩ := hokR s' hs'
          refine ⟨postCommon_trans procs hpc hpc', ?_⟩
          intro d' hd'
          rcases List.mem_cons.mp hd' with rfl | hd''
          · have : q.name ∈ s'.visited := hpc'.2.1 q.name hqvis
            rwa [hqname] at this
          · exact hvis' d' hd''
    exact ⟨hA, hB⟩

/-- The outer loop of `order_dependencies` preserves the invariant, restores
`visiting`, grows `visited` and visits every listed process; its only possible
error is a circular-dependency report. -/
lemma visitAllSpec (procs : List Proc) (hnd : (namesOf procs).Nodup)
    (hcl : Closed procs) (fuel : Nat) :
    ∀ l s, (∀ p ∈ l, p ∈ procs) → DfsInv procs s →
      (namesOf procs).length + 1 ≤ fuel + s.visiting.length →
      (∀ e, visitAll procs fuel l s = .error e → ∃ a b, e = .circularDep a b) ∧
      (∀ s', visitAll procs fuel l s = .ok s' →
        PostCommon procs s s' ∧ ∀ p ∈ l, p.name ∈ s'.visited) := by
  intro l
  induction l with
  | nil =>
    intro s _ hinv _
    rw [visitAll]
    refine ⟨fun e he => (nomatch he), fun s' hs' => ?_⟩
    injection hs' with h
    subst h
    exact ⟨postCommon_refl procs hinv, by simp⟩
  | cons p ps ihl =>
    intro s hl hinv hle
    obtain ⟨herrA, hokA⟩ :=
      (visitSpec procs hnd hcl fuel).1 p s (hl p (List.mem_cons_self _ _)) hinv hle
    cases hv : visitProc procs fuel p s with
    | error e =>
      have heq : visitAll procs fuel (p :: ps) s = .error e := by
        rw [visitAll, hv]
      rw [heq]
      refine ⟨fun e' he' => ?_, fun s' hs' => (nomatch hs')⟩
      injection he' with h
      exact h ▸ herrA e hv
    | ok s'' =>
      have heq : visitAll procs fuel (p :: ps) s = visitAll procs fuel ps s'' := by
        rw [visitAll, hv]
      rw [heq]
      obtain ⟨hpc, hpvis⟩ := hokA s'' hv
      have hle'' : (namesOf procs).length + 1 ≤ fuel + s''.visiting.length := by
        rw [hpc.1]
        exact hle
      obtain ⟨herrR, hokR⟩ :=
        ihl s'' (fun q hq => hl q (List.mem_cons_of_mem _ hq)) hpc.2.2.2 hle''
      refine ⟨herrR, fun s' hs' => ?_⟩
      obtain ⟨hpc', hvis'⟩ := hokR s' hs'
      refine ⟨postCommon_trans procs hpc hpc', ?_⟩
      intro q hq
      rcases List.mem_cons.mp hq with rfl | hq'
      · exact hpc'.2.1 q.name hpvis
      · exact hvis' q hq'

/-- The initial traversal state satisfies the invariant. -/
lemma dfsInv_init (procs : List Proc) : DfsInv procs DfsState.init := by
  refine ⟨fun x => by simp [DfsState.init], by simp [DfsState.init],
    by simp [DfsState.init], by simp [DfsState.init], by simp [DfsState.init], ?_⟩
  intro l1 n l2 h
  exact absurd h (by simp [DfsState.init])

/-- `order_dependencies` either reports a circular dependency or succeeds with
a final state that satisfies the invariant, has every declared process
visited, and yields the reordered process list by name lookup. -/
lemma orderDependencies_spec (procs : List Proc) (hnd : (namesOf procs).Nodup)
    (hcl : Closed procs) :
    (∀ e, orderDependencies procs = .error e → ∃ a b, e = .circularDep a b) ∧
    (∀ res, orderDependencies procs = .ok res →
      ∃ s', DfsInv procs s' ∧ (∀ p ∈ procs, p.name ∈ s'.visited) ∧
        res = s'.ordered.filterMap (findProc procs)) := by
  have hlen : (namesOf procs).length = procs.length := List.length_map _ _
  have hle : (namesOf procs).length + 1 ≤
      (procs.length + 1) + (DfsState.init.visiting.length) := by
    simp [DfsState.init]
    omega
  obtain ⟨herr, hok⟩ := visitAllSpec procs hnd hcl (procs.length + 1) procs
    DfsState.init (fun p hp => hp) (dfsInv_init procs) hle
  constructor
  · intro e he
    cases hva : visitAll procs (procs.length + 1) procs DfsState.init with
    | error e' =>
      have : orderDependencies procs = .error e' := by
        rw [orderDependencies, hva]
      rw [this] at he
      injection he with h
      exact h ▸ herr e' hva
    | ok s' =>
      have : orderDependencies procs = .ok (s'.ordered.filterMap (findProc procs)) := by
        rw [orderDependencies, hva]
      rw [this] at he
      exact (nomatch he)
  · intro res hres
    cases hva : visitAll procs (procs.length + 1) procs DfsState.init with
    | error e' =>
      have : orderDependencies procs = .error e' := by
        rw [orderDependencies, hva]
      rw [this] at hres
      exact (nomatch hres)
    | ok s' =>
      obtain ⟨hpc, hall⟩ := hok s' hva
      have : orderDependencies procs = .ok (s'.ordered.filterMap (findProc procs)) := by
        rw [orderDependencies, hva]
      rw [this] at hres
      injection hres with h
      exact ⟨s', hpc.2.2.2, hall, h.symm⟩

/-- Looking the names of an ordered name list back up and taking names again
is the identity, as long as every name is declared. -/
lemma filterMap_findProc_names (procs : List Proc) :
    ∀ L : List String, (∀ n ∈ L, n ∈ namesOf procs) →
      (L.filterMap (findProc procs)).map (fun q => q.name) = L := by
  intro L
  induction L with
  | nil => intro _; rfl
  | cons n L' ih =>
    intro hsub
    obtain ⟨q, hq⟩ := findProc_isSome_of_mem (hsub n (List.mem_cons_self _ _))
    rw [List.filterMap_cons, hq]
    simp only [List.map_cons]
    rw [(findProc_eq_some_name hq).2, ih (fun m hm => hsub m (List.mem_cons_of_mem _ hm))]

/-- Every member of the looked-up list is a declared process whose name is in
the name list. -/
lemma mem_of_mem_filterMap_findProc {procs : List Proc} {L : List String} {q : Proc}
    (h : q ∈ L.filterMap (findProc procs)) : q ∈ procs ∧ q.name ∈ L := by
  obtain ⟨n, hn, hfind⟩ := List.mem_filterMap.mp h
  obtain ⟨hq, hname⟩ := findProc_eq_some_name hfind
  exact ⟨hq, hname ▸ hn⟩

/-- A declared process whose name is in the name list is in the looked-up
list (names are unique). -/
lemma mem_filterMap_findProc_of_mem {procs : List Proc}
    (hnd : (namesOf procs).Nodup) {L : List String} {p : Proc}
    (hp : p ∈ procs) (hname : p.name ∈ L) :
    p ∈ L.filterMap (findProc procs) :=
  List.mem_filterMap.mpr ⟨p.name, hname, findProc_self hnd hp⟩

/-- In a duplicate-free list, an element cannot occur both before and after
another one: mutual two-element sublists force equality. -/
lemma sublist_pair_asymm {α : Type} {a b : α} {L : List α} (hnd : L.Nodup)
    (h1 : [a, b].Sublist L) (h2 : [b, a].Sublist L) : a = b := by
  induction L with
  | nil => exact (nomatch h1)
  | cons x L' ih =>
    have hx : x ∉ L' ∧ L'.Nodup := List.nodup_cons.mp hnd
    cases h1 with
    | cons _ h1' =>
      cases h2 with
      | cons _ h2' => exact ih hx.2 h1' h2'
      | cons₂ _ h2' =>
        exact absurd (h1'.subset (by simp)) hx.1
    | cons₂ _ h1' =>
      cases h2 with
      | cons _ h2' =>
        exact absurd (h2'.subset (by simp)) hx.1
      | cons₂ _ h2' => rfl

/-- Splitting a list at an occurrence of `a` with `b` occurring earlier gives
the ordered two-element sublist `[b, a]`. -/
lemma sublist_pair_of_split {α : Type} {a b : α} {L l1 l2 : List α}
    (hL : L = l1 ++ a :: l2) (hb : b ∈ l1) : [b, a].Sublist L := by
  subst hL
  have h1 : [b].Sublist l1 := List.singleton_sublist.mpr hb
  have h2 : [a].Sublist (a :: l2) := (List.nil_sublist l2).cons₂ a
  simpa using h1.append h2

/-- A successful construction passes all three validators in order. -/
lemma constructManifest_ok_elim {procs : List Proc} {res : List Proc}
    (h : constructManifest procs = .ok res) :
    resolveDependencies procs = .ok () ∧ orderDependencies procs = .ok res ∧
      validateReadyConfig res = .ok () := by
  cases hr : resolveDependencies procs with
  | error e =>
    have hx : constructManifest procs = .error e := by
      simp only [constructManifest, hr]
    rw [hx] at h
    exact (nomatch h)
  | ok u =>
    cases u
    cases ho : orderDependencies procs with
    | error e =>
      have hx : constructManifest procs = .error e := by
        simp only [constructManifest, hr, ho]
      rw [hx] at h
      exact (nomatch h)
    | ok ordered =>
      cases hv : validateReadyConfig ordered with
      | error e =>
        have hx : constructManifest procs = .error e := by
          simp only [constructManifest, hr, ho, hv]
        rw [hx] at h
        exact (nomatch h)
      | ok u' =>
        cases u'
        have hx : constructManifest procs = .ok ordered := by
          simp only [constructManifest, hr, ho, hv]
        rw [hx] at h
        injection h with h'
        subst h'
        exact ⟨rfl, rfl, hv⟩

/-- A successful construction with the spec-modelled affinity check passes the
base construction and the affinity validator. -/
lemma constructManifestWithAffinity_ok_elim {c : Int} {procs res : List Proc}
    (h : constructManifestWithAffinity c procs = .ok res) :
    constructManifest procs = .ok res ∧ validateCpuAffinity c res = .ok () := by
  cases hc : constructManifest procs with
  | error e =>
    have hx : constructManifestWithAffinity c procs = .error e := by
      simp only [constructManifestWithAffinity, hc]
    rw [hx] at h
    exact (nomatch h)
  | ok ordered =>
    cases hv : validateCpuAffinity c ordered with
    | error e =>
      have hx : constructManifestWithAffinity c procs = .error e := by
        simp only [constructManifestWithAffinity, hc, hv]
      rw [hx] at h
      exact (nomatch h)
    | ok u =>
      cases u
      have hx : constructManifestWithAffinity c procs = .ok ordered := by
        simp only [constructManifestWithAffinity, hc, hv]
      rw [hx] at h
      injection h with h'
      subst h'
      exact ⟨rfl, hv⟩

/-- The readiness-configuration validator accepts a process list exactly when
no process violates the readiness rules. -/
lemma validateReadyConfig_ok_iff :
    ∀ l : List Proc, validateReadyConfig l = .ok () ↔ ∀ p ∈ l, ¬ readyViolation p := by
  intro l
  induction l with
  | nil => simp [validateReadyConfig]
  | cons p rest ih =>
    cases hst : p.readyStrategy with
    | none =>
      have heq : validateReadyConfig (p :: rest) = validateReadyConfig rest := by
        simp only [validateReadyConfig, hst]
      rw [heq, ih]
      constructor
      · intro h q hq
        rcases List.mem_cons.mp hq with rfl | hq'
        · simp [readyViolation, hst]
        · exact h q hq'
      · intro h q hq'
        exact h q (List.mem_cons_of_mem _ hq')
    | some strat =>
      by_cases hc1 : (strat = "file" ∨ strat = "pipe") ∧
          lookupKey p.readyParams "path" = none
      · have heq : validateReadyConfig (p :: rest) = .error (.readyNeedsPath p.name) := by
          simp only [validateReadyConfig, hst]
          rw [if_pos hc1]
        rw [heq]
        constructor
        · intro h
          exact (nomatch h)
        · intro h
          exfalso
          apply h p (List.mem_cons_self _ _)
          exact Or.inl ⟨hc1.1.imp (fun h' => by rw [hst, h']) (fun h' => by rw [hst, h']),
            hc1.2⟩
      · by_cases hc2 : strat = "tcp" ∧ lookupKey p.readyParams "port" = none
        · have heq : validateReadyConfig (p :: rest) =
              .error (.readyNeedsPort p.name) := by
            simp only [validateReadyConfig, hst]
            rw [if_neg hc1, if_pos hc2]
          rw [heq]
          constructor
          · intro h
            exact (nomatch h)
          · intro h
            exfalso
            apply h p (List.mem_cons_self _ _)
            exact Or.inr ⟨by rw [hst, hc2.1], hc2.2⟩
        · have heq : validateReadyConfig (p :: rest) = validateReadyConfig rest := by
            simp only [validateReadyConfig, hst]
            rw [if_neg hc1, if_neg hc2]
          rw [heq, ih]
          constructor
          · intro h q hq
            rcases List.mem_cons.mp hq with rfl | hq'
            · intro hv
              rcases hv with ⟨hA, hB⟩ | ⟨hC, hD⟩
              · refine hc1 ⟨?_, hB⟩
                rw [hst] at hA
                exact hA.imp (fun h' => by injection h') (fun h' => by injection h')
              · refine hc2 ⟨?_, hD⟩
                rw [hst] at hC
                injection hC
            · exact h q hq'
          · intro h q hq'
            exact h q (List.mem_cons_of_mem _ hq')

/-- The affinity validator accepts exactly when every affinity value of every
process lies in `[0, cpuCount)`. -/
lemma validateCpuAffinity_ok_iff (c : Int) :
    ∀ l : List Proc, validateCpuAffinity c l = .ok () ↔
      ∀ p ∈ l, ∀ a ∈ p.affinity, ¬ (a < 0 ∨ c ≤ a) := by
  intro l
  induction l with
  | nil => simp [validateCpuAffinity]
  | cons p rest ih =>
    cases hf : p.affinity.find? (fun a => a < 0 || c ≤ a) with
    | some a =>
      have heq : validateCpuAffinity c (p :: rest) =
          .error (.affinityOutOfRange a p.name) := by
        simp only [validateCpuAffinity, hf]
      rw [heq]
      constructor
      · intro h
        exact (nomatch h)
      · intro h
        exfalso
        apply h p (List.mem_cons_self _ _) a (List.mem_of_find?_eq_some hf)
        have hpa := List.find?_some hf
        simpa using hpa
    | none =>
      have heq : validateCpuAffinity c (p :: rest) = validateCpuAffinity c rest := by
        simp only [validateCpuAffinity, hf]
      rw [heq, ih]
      constructor
      · intro h q hq a ha
        rcases List.mem_cons.mp hq with rfl | hq'
        · have := List.find?_eq_none.mp hf a ha
          simpa using this
        · exact h q hq' a ha
      · intro h q hq a ha
        exact h q (List.mem_cons_of_mem _ hq) a ha

/-- A process list containing an out-of-range affinity value makes the
affinity validator report an out-of-range error. -/
lemma validateCpuAffinity_error_of (c : Int) :
    ∀ l : List Proc, (∃ p ∈ l, ∃ a ∈ p.affinity, a < 0 ∨ c ≤ a) →
      ∃ core nm, validateCpuAffinity c l = .error (.affinityOutOfRange core nm) := by
  intro l
  induction l with
  | nil =>
    intro h
    obtain ⟨p, hp, _⟩ := h
    exact absurd hp (by simp)
  | cons p rest ih =>
    intro h
    obtain ⟨q, hq, a, ha, hbad⟩ := h
    cases hf : p.affinity.find? (fun a => a < 0 || c ≤ a) with
    | some b =>
      refine ⟨b, p.name, ?_⟩
      simp only [validateCpuAffinity, hf]
    | none =>
      have heq : validateCpuAffinity c (p :: rest) = validateCpuAffinity c rest := by
        simp only [validateCpuAffinity, hf]
      rw [heq]
      apply ih
      rcases List.mem_cons.mp hq with rfl | hq'
      · exfalso
        have := List.find?_eq_none.mp hf a ha
        exact (by simpa using this : ¬ (a < 0 ∨ c ≤ a)) hbad
      · exact ⟨q, hq', a, ha, hbad⟩

/-- If every process before `p` passes both of its checks and `p`'s name
repeats an earlier one, the scan reports the duplicate name. -/
lemma resolveGo_dup (procs : List Proc) :
    ∀ (pre : List Proc) (seen : List String) (p : Proc) (rest : List Proc),
      (p.name ∈ seen ∨ p.name ∈ namesOf pre) →
      (∀ q ∈ pre, q.name ∉ seen) →
      (namesOf pre).Nodup →
      (∀ q ∈ pre, ∀ d ∈ q.deps, d ∈ namesOf procs) →
      resolveGo procs (pre ++ p :: rest) seen = .error (.duplicateName p.name) := by
  intro pre
  induction pre with
  | nil =>
    intro seen p rest hmem _ _ _
    have hp : p.name ∈ seen := by
      rcases hmem with h | h
      · exact h
      · simp [namesOf] at h
    rw [List.nil_append]
    simp only [resolveGo]
    rw [if_pos hp]
  | cons q pre' ih =>
    intro seen p rest hmem hseen hnd hcl
    have hq_notin : q.name ∉ seen := hseen q (List.mem_cons_self _ _)
    have hfind : q.deps.find? (fun d => d ∉ namesOf procs) = none := by
      rw [List.find?_eq_none]
      intro d hd
      simpa using hcl q (List.mem_cons_self _ _) d hd
    have hndq : q.name ∉ namesOf pre' ∧ (namesOf pre').Nodup := by
      have hcons : namesOf (q :: pre') = q.name :: namesOf pre' := rfl
      rw [hcons, List.nodup_cons] at hnd
      exact hnd
    have heq : resolveGo procs ((q :: pre') ++ p :: rest) seen =
        resolveGo procs (pre' ++ p :: rest) (q.name :: seen) := by
      rw [List.cons_append]
      simp only [resolveGo, hfind]
      rw [if_neg hq_notin]
    rw [heq]
    apply ih (q.name :: seen) p rest
    · rcases hmem with h | h
      · exact Or.inl (List.mem_cons_of_mem _ h)
      · rcases (by simpa [namesOf] using h : p.name = q.name ∨ p.name ∈ namesOf pre') with h' | h'
        · exact Or.inl (h' ▸ List.mem_cons_self _ _)
        · exact Or.inr h'
    · intro q' hq' hmem'
      rcases List.mem_cons.mp hmem' with h' | h'
      · exact hndq.1 (h' ▸ mem_namesOf.mpr ⟨q', hq', rfl⟩)
      · exact hseen q' (List.mem_cons_of_mem _ hq') h'
    · exact hndq.2
    · intro q' hq' d hd
      exact hcl q' (List.mem_cons_of_mem _ hq') d hd

/-- C1: for every manifest that passes dependency resolution and the
topological sort, the resulting process order is a topological ordering of the
dependency graph (each dependency's name occurs strictly before the dependent
process); and on the manifest `[{c, deps:[b]}, {a}, {b, deps:[a]}]` the
post-validation order is `[a, b, c]` (ties broken by declaration order). -/
theorem C1_topological_order :
    (∀ (procs res : List Proc), resolveDependencies procs = .ok () →
        orderDependencies procs = .ok res →
        ∀ p ∈ res, ∀ d ∈ p.deps,
          ∃ l1 l2, res.map (fun q => q.name) = l1 ++ p.name :: l2 ∧ d ∈ l1) ∧
    (∃ res, constructManifest
        [{ name := "c", deps := ["b"] }, { name := "a" }, { name := "b", deps := ["a"] }] =
          .ok res ∧ res.map (fun q => q.name) = ["a", "b", "c"]) := by
  constructor
  · intro procs res hres hord p hp d hd
    obtain ⟨hnd, hcl⟩ := resolve_ok_nodup_closed hres
    obtain ⟨s', hinv, hall, hres'⟩ := (orderDependencies_spec procs hnd hcl).2 res hord
    obtain ⟨hiff, hordN, _, hvsub, _, htopo⟩ := hinv
    have hOrdSub : ∀ n ∈ s'.ordered, n ∈ namesOf procs :=
      fun n hn => hvsub n ((hiff n).mpr hn)
    have hmapL : res.map (fun q => q.name) = s'.ordered := by
      rw [hres']
      exact filterMap_findProc_names procs s'.ordered hOrdSub
    have hpp : p ∈ procs ∧ p.name ∈ s'.ordered := by
      rw [hres'] at hp
      exact mem_of_mem_filterMap_findProc hp
    obtain ⟨l1, l2, hsplit⟩ := List.append_of_mem hpp.2
    have hdeps : depsOfName procs p.name = p.deps := by
      simp [depsOfName, findProc_self hnd hpp.1]
    have hdl1 : d ∈ l1 := htopo l1 p.name l2 hsplit d (hdeps.symm ▸ hd)
    exact ⟨l1, l2, by rw [hmapL, hsplit], hdl1⟩
  · exact ⟨_, rfl, rfl⟩

/-- Witness for C1 at the concrete example manifest: in the reordered list the
dependency `b` of `c` occurs strictly before `c`. -/
theorem C1_topological_order_witness :
    ∃ l1 l2,
      (([⟨"a", "", [], none, [], []⟩, ⟨"b", "", ["a"], none, [], []⟩,
          ⟨"c", "", ["b"], none, [], []⟩] : List Proc).map (fun q => q.name)) =
        l1 ++ "c" :: l2 ∧ "b" ∈ l1 :=
  C1_topological_order.1
    [⟨"c", "", ["b"], none, [], []⟩, ⟨"a", "", [], none, [], []⟩,
      ⟨"b", "", ["a"], none, [], []⟩]
    [⟨"a", "", [], none, [], []⟩, ⟨"b", "", ["a"], none, [], []⟩,
      ⟨"c", "", ["b"], none, [], []⟩]
    rfl rfl ⟨"c", "", ["b"], none, [], []⟩ (by decide) "b" (by decide)

/-- C5: a manifest whose dependency names resolve but which contains a
two-cycle between distinct processes `p1` and `p2` makes construction fail
with a `ValueError` whose message begins with `"Circular dependency
detected"`; the detection is the depth-first traversal `visitProc`, which
raises exactly when it revisits a node currently marked `visiting`. -/
theorem C5_two_cycle_circular (procs : List Proc) (p1 p2 : Proc)
    (h1 : p1 ∈ procs) (h2 : p2 ∈ procs) (hne : p1.name ≠ p2.name)
    (d12 : p2.name ∈ p1.deps) (d21 : p1.name ∈ p2.deps)
    (hres : resolveDependencies procs = .ok ()) :
    ∃ a b tail, constructManifest procs = .error (.circularDep a b) ∧
      (ValErr.circularDep a b).message = "Circular dependency detected" ++ tail := by
  obtain ⟨hnd, hcl⟩ := resolve_ok_nodup_closed hres
  cases hord : orderDependencies procs with
  | ok res =>
    exfalso
    obtain ⟨s', hinv, hall, _⟩ := (orderDependencies_spec procs hnd hcl).2 res hord
    obtain ⟨hiff, hordN, _, _, _, htopo⟩ := hinv
    have hm1 : p1.name ∈ s'.ordered := (hiff _).mp (hall p1 h1)
    have hm2 : p2.name ∈ s'.ordered := (hiff _).mp (hall p2 h2)
    obtain ⟨l1, l2, hsplit1⟩ := List.append_of_mem hm1
    obtain ⟨m1, m2, hsplit2⟩ := List.append_of_mem hm2
    have hd1 : depsOfName procs p1.name = p1.deps := by
      simp [depsOfName, findProc_self hnd h1]
    have hd2 : depsOfName procs p2.name = p2.deps := by
      simp [depsOfName, findProc_self hnd h2]
    have hb1 : p2.name ∈ l1 := htopo l1 p1.name l2 hsplit1 p2.name (hd1.symm ▸ d12)
    have hb2 : p1.name ∈ m1 := htopo m1 p2.name m2 hsplit2 p1.name (hd2.symm ▸ d21)
    have hsub1 : [p2.name, p1.name].Sublist s'.ordered :=
      sublist_pair_of_split hsplit1 hb1
    have hsub2 : [p1.name, p2.name].Sublist s'.ordered :=
      sublist_pair_of_split hsplit2 hb2
    exact hne (sublist_pair_asymm hordN hsub2 hsub1)
  | error e =>
    obtain ⟨a, b, rfl⟩ := (orderDependencies_spec procs hnd hcl).1 e hord
    refine ⟨a, b, " involving process " ++ a ++ " and process " ++ b, ?_, ?_⟩
    · simp only [constructManifest, hres, hord]
    · show "Circular dependency detected involving process " ++ a ++ " and process " ++ b =
        "Circular dependency detected" ++ (" involving process " ++ a ++ " and process " ++ b)
      rw [show "Circular dependency detected involving process " =
        "Circular dependency detected" ++ " involving process " from rfl]
      simp only [String.append_assoc]

/-- Witness for C5 at a concrete two-cycle manifest. -/
theorem C5_two_cycle_circular_witness :
    ∃ a b tail,
      constructManifest [⟨"p1", "", ["p2"], none, [], []⟩,
          ⟨"p2", "", ["p1"], none, [], []⟩] = .error (.circularDep a b) ∧
      (ValErr.circularDep a b).message = "Circular dependency detected" ++ tail :=
  C5_two_cycle_circular
    [⟨"p1", "", ["p2"], none, [], []⟩, ⟨"p2", "", ["p1"], none, [], []⟩]
    ⟨"p1", "", ["p2"], none, [], []⟩ ⟨"p2", "", ["p1"], none, [], []⟩
    (by decide) (by decide) (by decide) (by decide) (by decide) rfl

/-- C3: a manifest containing a process with `ready_strategy` `"tcp"` and no
`"port"` key, or `"file"`/`"pipe"` and no `"path"` key, fails construction
with a validation error; and the readiness-configuration check accepts every
process list whose members all satisfy the readiness rules. -/
theorem C3_ready_config_validation (procs : List Proc) :
    ((∃ p ∈ procs, readyViolation p) → ∃ e, constructManifest procs = .error e) ∧
    ((∀ p ∈ procs, ¬ readyViolation p) → validateReadyConfig procs = .ok ()) := by
  constructor
  · intro hex
    obtain ⟨p, hp, hviol⟩ := hex
    cases hcm : constructManifest procs with
    | error e => exact ⟨e, rfl⟩
    | ok res =>
      exfalso
      obtain ⟨hres, hord, hvr⟩ := constructManifest_ok_elim hcm
      obtain ⟨hnd, hcl⟩ := resolve_ok_nodup_closed hres
      obtain ⟨s', hinv, hall, hres'⟩ := (orderDependencies_spec procs hnd hcl).2 res hord
      have hpord : p.name ∈ s'.ordered := (hinv.1 _).mp (hall p hp)
      have hpres : p ∈ res := by
        rw [hres']
        exact mem_filterMap_findProc_of_mem hnd hp hpord
      exact (validateReadyConfig_ok_iff res).mp hvr p hpres hviol
  · intro h
    exact (validateReadyConfig_ok_iff procs).mpr h

/-- Witness for C3 at a concrete manifest: a `tcp` process without a port key
is rejected. -/
theorem C3_ready_config_validation_witness :
    ∃ e, constructManifest [⟨"t", "", [], some "tcp", [], []⟩] = .error e :=
  (C3_ready_config_validation [⟨"t", "", [], some "tcp", [], []⟩]).1
    ⟨⟨"t", "", [], some "tcp", [], []⟩, by decide, by decide⟩

/-- C4, counterexample: in the manifest `[{a, deps:[zzz]}, {b}, {b}]` both a
duplicate name (`b`) and an undeclared dependency (`zzz`) are present, yet
construction reports the missing dependency of the earlier process `a`, not
the duplicate name: the two checks are interleaved per process, not phased. -/
theorem C4_counterexample :
    constructManifest [⟨"a", "", ["zzz"], none, [], []⟩,
        ⟨"b", "", [], none, [], []⟩, ⟨"b", "", [], none, [], []⟩] =
      .error (.missingDep "zzz" "a") ∧
    ∀ n, (ValErr.missingDep "zzz" "a") ≠ ValErr.duplicateName n :=
  ⟨rfl, fun _ h => (nomatch h)⟩

/-- C4, amended: duplicate-name and dependency-resolution checks run
interleaved, per process in declaration order, with each process's
duplicate-name check before its dependency checks; hence the duplicate-name
violation is the one reported whenever every process declared before the
second occurrence of the duplicated name has only declared dependencies. -/
theorem C4_amended_duplicate_reported_first (pre : List Proc) (p : Proc)
    (rest : List Proc)
    (hdup : p.name ∈ namesOf pre)
    (hnd : (namesOf pre).Nodup)
    (hcl : ∀ q ∈ pre, ∀ d ∈ q.deps, d ∈ namesOf (pre ++ p :: rest)) :
    constructManifest (pre ++ p :: rest) = .error (.duplicateName p.name) := by
  have hres : resolveDependencies (pre ++ p :: rest) =
      .error (.duplicateName p.name) := by
    rw [resolveDependencies]
    exact resolveGo_dup (pre ++ p :: rest) pre [] p rest (Or.inr hdup)
      (by simp) hnd hcl
  simp only [constructManifest, hres]

/-- Witness for the amended C4: a manifest whose only flaw is the duplicated
name `b` reports the duplicate. -/
theorem C4_amended_duplicate_reported_first_witness :
    constructManifest [⟨"b", "", [], none, [], []⟩, ⟨"b", "", [], none, [], []⟩] =
      .error (.duplicateName "b") :=
  C4_amended_duplicate_reported_first [⟨"b", "", [], none, [], []⟩]
    ⟨"b", "", [], none, [], []⟩ [] (by decide) (by decide) (by decide)

/-- C9 (spec-modelled): a manifest containing a process with an affinity value
outside `[0, cpuCount)` never constructs successfully under the affinity
check, the affinity validator reports an out-of-range error, and in
particular `affinity = [CPU_COUNT]` with `CPU_COUNT = 4` yields the error
`affinityOutOfRange 4`, whose message contains `"out of range"`. -/
theorem C9_affinity_out_of_range (cpuCount : Int) (procs : List Proc)
    (p : Proc) (a : Int) (hp : p ∈ procs) (ha : a ∈ p.affinity)
    (hbad : a < 0 ∨ cpuCount ≤ a) :
    (∀ res, constructManifestWithAffinity cpuCount procs ≠ .ok res) ∧
    (∃ core nm, validateCpuAffinity cpuCount procs =
      .error (.affinityOutOfRange core nm)) ∧
    validateCpuAffinity 4 [{ name := "p1", affinity := [4] }] =
      .error (.affinityOutOfRange 4 "p1") ∧
    pySubstr "out of range" ((ValErr.affinityOutOfRange 4 "p1").message) = true := by
  refine ⟨?_, validateCpuAffinity_error_of cpuCount procs ⟨p, hp, a, ha, hbad⟩,
    rfl, by decide⟩
  intro res hok
  obtain ⟨hcm, hva⟩ := constructManifestWithAffinity_ok_elim hok
  obtain ⟨hres, hord, _⟩ := constructManifest_ok_elim hcm
  obtain ⟨hnd, hcl⟩ := resolve_ok_nodup_closed hres
  obtain ⟨s', hinv, hall, hres'⟩ := (orderDependencies_spec procs hnd hcl).2 res hord
  have hpres : p ∈ res := by
    rw [hres']
    exact mem_filterMap_findProc_of_mem hnd hp ((hinv.1 _).mp (hall p hp))
  exact (validateCpuAffinity_ok_iff cpuCount res).mp hva p hpres a ha hbad

/-- Witness for C9 at a concrete manifest with `CPU_COUNT = 4` and
`affinity = [4]`. -/
theorem C9_affinity_out_of_range_witness :
    ∃ core nm, validateCpuAffinity 4 [⟨"p1", "", [], none, [], [4]⟩] =
      .error (.affinityOutOfRange core nm) :=
  (C9_affinity_out_of_range 4 [⟨"p1", "", [], none, [], [4]⟩]
    ⟨"p1", "", [], none, [], [4]⟩ 4 (by decide) (by decide) (by decide)).2.1

end ProcessPilot
